import Mathlib

/-!
Verification development for the stackr stack-lifecycle orchestrator.

Go strings are modelled as `List Char` (written `Str`): Go indexes bytes,
but every comparison/claim in this development concerns ASCII data, where
byte order and code-point order coincide (UTF-8 is order preserving, so
lexicographic byte order equals lexicographic code-point order in general).
File-system effects are modelled by explicit state records, and external
effects (git, docker) by oracle records describing each call's outcome.
-/

set_option maxRecDepth 4000

namespace Stackr

/-- Character-list model of a Go string. -/
abbrev Str := List Char

instance {ε α : Type} [DecidableEq ε] [DecidableEq α] : DecidableEq (Except ε α) := fun a b =>
  match a, b with
  | .error x, .error y =>
    if h : x = y then isTrue (by rw [h]) else isFalse (by intro hc; cases hc; exact h rfl)
  | .ok x, .ok y =>
    if h : x = y then isTrue (by rw [h]) else isFalse (by intro hc; cases hc; exact h rfl)
  | .error _, .ok _ => isFalse (by intro hc; cases hc)
  | .ok _, .error _ => isFalse (by intro hc; cases hc)

/-- Whitespace test used by Go's strings.TrimSpace (ASCII cases; the claims
only exercise ASCII data). -/
def isSpaceChar (c : Char) : Bool :=
  c = ' ' || c = '\t' || c = '\n' || c = '\r' || c = '\x0b' || c = '\x0c'

/-- Model of strings.TrimSpace: drop leading and trailing whitespace. -/
def trimSpace (s : Str) : Str :=
  ((s.dropWhile isSpaceChar).reverse.dropWhile isSpaceChar).reverse

/-- Model of strings.ReplaceAll(s, CRLF, LF): left-to-right, non-overlapping. -/
def normalizeCRLF : Str → Str
  | [] => []
  | '\r' :: '\n' :: rest => '\n' :: normalizeCRLF rest
  | c :: rest => c :: normalizeCRLF rest

/-- Model of strings.Split(s, sep) for a single-character separator. -/
def splitOnChar (sep : Char) : Str → List Str
  | [] => [[]]
  | c :: rest =>
    match splitOnChar sep rest with
    | [] => [[c]]
    | l :: ls => if c = sep then [] :: l :: ls else (c :: l) :: ls

/-- Lines of an env file: CRLF-normalized content split on LF
(mirrors the start of envfile.Update). -/
def splitLines (s : Str) : List Str := splitOnChar '\n' (normalizeCRLF s)

/-- Drop the final element when it is the empty line (the Go loop's
`i == len(lines)-1 && line == ""` skip). -/
def dropLastBlank (ls : List Str) : List Str :=
  if ls.getLast? = some [] then ls.dropLast else ls

/-- A line kept verbatim because it is blank or a comment
(`trimmed == "" || strings.HasPrefix(trimmed, "#")`). -/
def isBlankOrComment (l : Str) : Bool :=
  trimSpace l = [] || (trimSpace l).head? = some '#'

/-- Model of strings.SplitN(l, eq-sign, 2): the part before the first
equals sign and the part after it, or none when the line has no equals sign. -/
def splitEq : Str → Option (Str × Str)
  | [] => none
  | c :: rest =>
    if c = '=' then some ([], rest)
    else (splitEq rest).map fun p => (c :: p.1, p.2)

/-- The rendered replacement line `key=value`. -/
def keyValueLine (key value : Str) : Str := key ++ '=' :: value

/-- A line that the Update loop rewrites: not blank/comment, has an equals
sign, and its trimmed key part equals `key`. -/
def isTargetLine (key l : Str) : Bool :=
  !isBlankOrComment l &&
    match splitEq l with
    | some p => trimSpace p.1 = key
    | none => false

/-- Value part of a target line (for the `previous` bookkeeping). -/
def targetValue (key l : Str) : Option Str :=
  if isTargetLine key l then (splitEq l).map Prod.snd else none

/-- The body of envfile.Update's loop over the (effective) lines: each
target line is replaced in place by `key=value`, every other line is kept
verbatim; the second component is the value of the last target line. -/
def updateLines (key value : Str) : List Str → List Str × Option Str
  | [] => ([], none)
  | l :: rest =>
    let r := updateLines key value rest
    if isTargetLine key l then
      (keyValueLine key value :: r.1, r.2 <|> (splitEq l).map Prod.snd)
    else
      (l :: r.1, r.2)

/-- Join lines back with LF separators (strings.Join(updated, LF)). -/
def joinNL : List Str → Str
  | [] => []
  | [l] => l
  | l :: ls => l ++ '\n' :: joinNL ls

/-- The effective lines envfile.Update's loop iterates over: the split
lines with the final empty line dropped. -/
def effLines (content : Str) : List Str := dropLastBlank (splitLines content)

/-- Value part of the last target line of a line list (the `previous`
variable after the loop, None when no line matched). -/
def lastTargetValue (key : Str) (ls : List Str) : Option Str :=
  (ls.filterMap (targetValue key)).getLast?

/-- Model of envfile.Update on raw content: returns the written content and
the (trimmed) previous value of `key`. -/
def envUpdateContent (content key value : Str) : Str × Str :=
  let ls := effLines content
  let r := updateLines key value ls
  let final :=
    if r.2.isSome then r.1
    else
      (if r.1 ≠ [] ∧ r.1.getLast? ≠ some [] then r.1 ++ [[]] else r.1)
        ++ [keyValueLine key value]
  (joinNL final ++ ['\n'], trimSpace (r.2.getD []))

/-- State of the environment file: content bytes plus permission mode. -/
structure FileState where
  data : Str
  mode : Nat
  deriving Repr, DecidableEq

/-- Model of envfile.Snapshot. -/
structure Snapshot where
  data : Str
  mode : Nat
  deriving Repr, DecidableEq

/-- Model of envfile.SnapshotFile on a readable file: raw bytes plus the
stat-reported mode. -/
def snapshotFile (f : FileState) : Snapshot := ⟨f.data, f.mode⟩

/-- Model of os.WriteFile on an existing file: the contents are replaced
and the permission argument is inert — os.WriteFile applies it only when
it creates the file, so an existing file keeps its mode. -/
def writeFileExisting (f : FileState) (data : Str) (_perm : Nat) : FileState :=
  ⟨data, f.mode⟩

/-- Model of envfile.Restore: write the snapshot bytes back over the
existing file, passing the snapshot's mode (inert on an existing file). -/
def restoreFile (f : FileState) (snap : Snapshot) : FileState :=
  writeFileExisting f snap.data snap.mode

/-- Model of envfile.Update at the file level: the new content is written
over the existing file with a hardcoded 0644 permission argument, which
os.WriteFile ignores for an existing file. -/
def updateFile (f : FileState) (key value : Str) : FileState × Str :=
  let r := envUpdateContent f.data key value
  (writeFileExisting f r.1 0o644, r.2)

/-! Runner.Deploy (runner package): snapshot, tag update, stack execution,
rollback on failure. Stack execution and manager creation are external
effects, modelled by boolean oracles; `restoreOk` models whether the
rollback write itself succeeds (a failed write leaves the file as it was). -/

/-- Success result of Runner.Deploy (the Go Result struct, stdout elided). -/
structure DeployResult where
  status : String
  stack : String
  tag : Str
  deriving Repr, DecidableEq

/-- Errors Runner.Deploy can surface. -/
inductive DeployError where
  | managerCreation
  | commandError (stack : String) (code : Nat)
  deriving Repr, DecidableEq

/-- Model of Runner.Deploy: take a snapshot, write the tag under `tagEnv`,
create the stack manager, run the stack; on manager-creation or execution
failure restore the snapshot over the current file and surface the
original error (a failed restore is logged only and never replaces it). -/
def deploy (f : FileState) (stack : String) (tagEnv tag : Str)
    (managerOk runOk restoreOk : Bool) : FileState × Except DeployError DeployResult :=
  let snap := snapshotFile f
  let u := updateFile f tagEnv tag
  if managerOk = false then
    (if restoreOk then restoreFile u.1 snap else u.1, .error .managerCreation)
  else if runOk = false then
    (if restoreOk then restoreFile u.1 snap else u.1, .error (.commandError stack 1))
  else
    (u.1, .ok ⟨"ok", stack, tag⟩)

/-! Retry engine (remote package, RetryImagePull). Durations are in
nanoseconds as in Go's time.Duration; the float64 backoff multiplier is
modelled as a natural number, exact for the integral multipliers the
configuration uses. The operation is an oracle `op i` telling whether the
i-th attempt succeeds, and `cancel i` tells whether the context is
cancelled during the wait that follows the i-th failed attempt. -/

/-- Model of remote.RetryConfig. -/
structure RetryConfig where
  maxAttempts : Nat
  initialDelay : Nat
  maxDelay : Nat
  backoff : Nat
  deriving Repr, DecidableEq

/-- Model of remote.DefaultRetryConfig: 5 attempts, 30s initial delay,
5m max delay, multiplier 2. -/
def defaultRetryConfig : RetryConfig :=
  ⟨5, 30000000000, 300000000000, 2⟩

/-- Outcome of the retry wrapper. -/
inductive RetryOutcome where
  | ok
  | exhausted
  | cancelled
  deriving Repr, DecidableEq

/-- Body of RetryImagePull's loop: `fuel` counts the attempts still allowed
after the current one (the `attempt == cfg.MaxAttempts` check is `fuel = 0`).
Returns the outcome and the list of delays actually waited. -/
def retryAux (op cancel : Nat → Bool) (maxDelay backoff : Nat) :
    Nat → Nat → Nat → RetryOutcome × List Nat
  | attempt, _, 0 => if op attempt then (.ok, []) else (.exhausted, [])
  | attempt, delay, fuel + 1 =>
    if op attempt then (.ok, [])
    else if cancel attempt then (.cancelled, [])
    else
      let next := min (delay * backoff) maxDelay
      let r := retryAux op cancel maxDelay backoff (attempt + 1) next fuel
      (r.1, delay :: r.2)

/-- Model of remote.RetryImagePull. The first attempt is attempt 1; with
`maxAttempts = 0` the Go loop body never runs and the exhaustion error is
returned directly. -/
def retryImagePull (op cancel : Nat → Bool) (cfg : RetryConfig) :
    RetryOutcome × List Nat :=
  match cfg.maxAttempts with
  | 0 => (.exhausted, [])
  | n + 1 => retryAux op cancel cfg.maxDelay cfg.backoff 1 cfg.initialDelay n

/-! Removal tracker (removal package). The Go state is a map[string]bool
used as a set; map iteration order is unspecified, so the returned removal
list is modelled as the corresponding Finset. -/

/-- Model of removal.Tracker: the current snapshot of known stack names. -/
structure Tracker where
  known : Finset String
  deriving DecidableEq

/-- Model of Tracker.Initialize: replace the state with the given names. -/
def Tracker.seed (names : List String) : Tracker := ⟨names.toFinset⟩

/-- Model of Tracker.Update: report every previously known stack missing
from `current`, and replace the snapshot with `current` unconditionally. -/
def Tracker.update (t : Tracker) (current : List String) : Finset String × Tracker :=
  let currentSet := current.toFinset
  (t.known.filter fun s => s ∉ currentSet, ⟨currentSet⟩)

/-- Model of Handler.CheckForRemovals' detection step: the first component
is the set of stacks for which the archive-then-cleanup sequence runs. -/
def checkForRemovals (t : Tracker) (current : List String) : Finset String × Tracker :=
  t.update current

/-! Stack discovery (stackcmd package). A directory entry of the stacks
dir records the Stat outcome for docker-compose.yml and stackr-repo.yml
(`some d` = path exists with IsDir = d) and, for remote stacks, the result
of LoadRemoteStackDefinition (`none` = load fails). Path joining is
modelled as string concatenation with a slash. -/

/-- Model of config.RemoteStackDefinition's remote_repo section, as
returned by LoadRemoteStackDefinition (defaults already applied). -/
structure RemoteStackDef where
  url : String
  branch : String
  path : String
  releaseType : String
  releaseRef : Str
  deriving Repr, DecidableEq

/-- One entry of the stacks directory listing. -/
structure DirEntry where
  name : String
  isDir : Bool
  composeStat : Option Bool
  remoteDefStat : Option Bool
  remoteDef : Option RemoteStackDef
  deriving Repr, DecidableEq

/-- Model of stackcmd.fileExists: the path exists and is not a directory. -/
def fileExistsStat : Option Bool → Bool
  | some d => !d
  | none => false

/-- Path join (paths are opaque strings for the claims at hand). -/
def joinPath (a b : String) : String := a ++ "/" ++ b

/-- The configuration slice discovery needs: the stacks directory and the
resolved remote working-copy root. -/
structure DiscoveryConfig where
  stacksDir : String
  remoteRepoDir : String
  deriving Repr, DecidableEq

/-- Model of stackcmd.StackType. -/
inductive StackType where
  | isLocal
  | isRemote
  deriving Repr, DecidableEq

/-- Model of stackcmd.StackInfo. -/
structure StackInfo where
  name : String
  type : StackType
  composePath : String
  deriving Repr, DecidableEq

/-- Errors of discovery and resolution. -/
inductive DiscoveryError where
  | ambiguous (stack : String)
  | remoteDefLoad (stack : String)
  | notFound (stack : String)
  | unclassified (stack : String)
  deriving Repr, DecidableEq

/-- Compose path of a local stack. -/
def localComposePath (cfg : DiscoveryConfig) (stackName : String) : String :=
  joinPath (joinPath cfg.stacksDir stackName) "docker-compose.yml"

/-- Compose path of a remote stack (honouring the optional subdirectory). -/
def remoteComposePath (cfg : DiscoveryConfig) (stackName : String) (d : RemoteStackDef) : String :=
  if d.path ≠ "" ∧ d.path ≠ "." then
    joinPath (joinPath (joinPath cfg.remoteRepoDir stackName) d.path) "docker-compose.yml"
  else
    joinPath (joinPath cfg.remoteRepoDir stackName) "docker-compose.yml"

/-- The loop of stackcmd.DiscoverStacks over the directory listing:
fail-fast on the first ambiguous or unloadable entry, otherwise collect
classified stacks in listing order. -/
def discoverLoop (cfg : DiscoveryConfig) : List DirEntry → Except DiscoveryError (List StackInfo)
  | [] => .ok []
  | e :: rest =>
    if !e.isDir then discoverLoop cfg rest
    else if fileExistsStat e.composeStat ∧ fileExistsStat e.remoteDefStat then
      .error (.ambiguous e.name)
    else if fileExistsStat e.composeStat then
      (discoverLoop cfg rest).map (⟨e.name, .isLocal, localComposePath cfg e.name⟩ :: ·)
    else if fileExistsStat e.remoteDefStat then
      match e.remoteDef with
      | none => .error (.remoteDefLoad e.name)
      | some d => (discoverLoop cfg rest).map (⟨e.name, .isRemote, remoteComposePath cfg e.name d⟩ :: ·)
    else discoverLoop cfg rest

/-- Name order on discovered stacks (the sort key of DiscoverStacks). -/
def nameLE (a b : StackInfo) : Prop := a.name ≤ b.name

instance : DecidableRel nameLE := fun a b => inferInstanceAs (Decidable (a.name ≤ b.name))

instance : IsTotal StackInfo nameLE := ⟨fun a b => le_total a.name b.name⟩

instance : IsTrans StackInfo nameLE := ⟨fun _ _ _ h h' => le_trans h h'⟩

/-- Model of stackcmd.DiscoverStacks: classify every directory entry, then
sort by name. Go's sort.Slice is modelled by insertion sort; the orders
agree since directory entries have pairwise distinct names. -/
def discoverStacks (cfg : DiscoveryConfig) (entries : List DirEntry) :
    Except DiscoveryError (List StackInfo) :=
  (discoverLoop cfg entries).map (List.insertionSort nameLE)

/-- Model of stackcmd.ResolveStackPath on the named stack's directory
state (`e.isDir` models dirExists for the stack directory). -/
def resolveStackPath (cfg : DiscoveryConfig) (e : DirEntry) : Except DiscoveryError StackInfo :=
  if !e.isDir then .error (.notFound e.name)
  else if fileExistsStat e.composeStat ∧ fileExistsStat e.remoteDefStat then
    .error (.ambiguous e.name)
  else if !fileExistsStat e.composeStat ∧ !fileExistsStat e.remoteDefStat then
    .error (.unclassified e.name)
  else if fileExistsStat e.composeStat then
    .ok ⟨e.name, .isLocal, localComposePath cfg e.name⟩
  else
    match e.remoteDef with
    | none => .error (.remoteDefLoad e.name)
    | some d => .ok ⟨e.name, .isRemote, remoteComposePath cfg e.name d⟩

/-- Model of cmd/stackr loadStackNames: names of directories whose
docker-compose.yml path Stats successfully (directory-or-file, matching
the os.Stat err == nil check there). -/
def loadStackNames (entries : List DirEntry) : List String :=
  entries.filterMap fun e =>
    if e.isDir ∧ e.composeStat.isSome then some e.name else none

/-! Remote sync engine (remote package). Git operations are external
effects, modelled by a GitOracle giving each call's outcome. Version-ref
resolution (config.ResolveVersionRef) is embedded: the regex
for dollar-brace variable references is realized as a left-to-right scan. -/

/-- First character of an identifier in the variable-reference pattern. -/
def isIdentStart (c : Char) : Bool := c.isAlpha || c = '_'

/-- Subsequent identifier characters. -/
def isIdentChar (c : Char) : Bool := c.isAlphanum || c = '_'

/-- Longest run of identifier characters and the remainder. -/
def identSpan : Str → Str × Str
  | [] => ([], [])
  | c :: rest =>
    if isIdentChar c then
      match identSpan rest with
      | (run, left) => (c :: run, left)
    else ([], c :: rest)

/-- Parse one variable reference right after a dollar-brace opener:
identifier then the closing brace; returns the name and the remainder. -/
def parseVarAt : Str → Option (Str × Str)
  | [] => none
  | c :: rest =>
    if isIdentStart c then
      match identSpan rest with
      | (run, '\x7d' :: left) => some (c :: run, left)
      | _ => none
    else none

/-- Fuelled scan for dollar-brace variable references (the regex's
non-overlapping leftmost matches; on a failed match at a dollar sign the
scan resumes one character later). Every step consumes at least one
character, so `length + 1` fuel always suffices. -/
def scanVarRefsF : Nat → Str → List Str
  | 0, _ => []
  | _, [] => []
  | fuel + 1, '$' :: '\x7b' :: rest =>
    match parseVarAt rest with
    | some (v, rest2) => v :: scanVarRefsF fuel rest2
    | none => scanVarRefsF fuel ('\x7b' :: rest)
  | fuel + 1, _ :: rest => scanVarRefsF fuel rest

/-- All dollar-brace variable references in scan order. -/
def scanVarRefs (s : Str) : List Str := scanVarRefsF (s.length + 1) s

/-- Fuelled model of strings.ReplaceAll for a nonempty pattern (the
patterns used are dollar-brace references, never empty): non-overlapping
left-to-right; `length + 1` fuel always suffices. -/
def replaceAllSubF (pat rep : Str) : Nat → Str → Str
  | 0, s => s
  | _, [] => []
  | fuel + 1, c :: rest =>
    if pat ≠ [] ∧ pat.isPrefixOf (c :: rest) then
      rep ++ replaceAllSubF pat rep fuel (rest.drop (pat.length - 1))
    else c :: replaceAllSubF pat rep fuel rest

/-- Model of strings.ReplaceAll for a nonempty pattern. -/
def replaceAllSub (pat rep s : Str) : Str := replaceAllSubF pat rep (s.length + 1) s

/-- The literal full-match text of a variable reference. -/
def varPattern (v : Str) : Str := '$' :: '\x7b' :: (v ++ ['\x7d'])

/-- Errors of version-ref resolution. -/
inductive ResolveError where
  | emptyRef
  | missingVar (name : Str)
  deriving Repr, DecidableEq

/-- Substitute each found reference by its environment value, failing on
the first reference whose variable is absent, naming that variable. -/
def resolveVarsLoop (env : List (Str × Str)) : Str → List Str → Except ResolveError Str
  | resolved, [] => .ok resolved
  | resolved, v :: vs =>
    match env.lookup v with
    | none => .error (.missingVar v)
    | some value => resolveVarsLoop env (replaceAllSub (varPattern v) value resolved) vs

/-- Model of config.ResolveVersionRef; when references were substituted
the result is whitespace-trimmed, while the no-reference path returns the
ref as-is. -/
def resolveVersionRef (ref : Str) (env : List (Str × Str)) : Except ResolveError Str :=
  if ref = [] then .error .emptyRef
  else
    match scanVarRefs ref with
    | [] => .ok ref
    | vs => (resolveVarsLoop env ref vs).map trimSpace

/-- Model of git.GitError (exit code of the failing git invocation). -/
structure GitError where
  exitCode : Int
  deriving Repr, DecidableEq

/-- Outcome of one git call. -/
inductive GitCallResult where
  | ok
  | gitFailure (e : GitError)
  | failure (msg : String)
  deriving Repr, DecidableEq

/-- Oracle for the git effects EnsureRemoteStack performs. -/
structure GitOracle where
  repoExists : Bool
  cloneErr : Option String
  fetchErr : Option String
  pullResult : GitCallResult
  currentCommit : Except String Str
  checkoutResult : GitCallResult
  deriving Repr

/-- Model of Manager.pullLatest: fetch then pull; a pull GitError with
exit code 0 counts as success. -/
def pullLatest (g : GitOracle) : Except String Unit :=
  match g.fetchErr with
  | some e => .error e
  | none =>
    match g.pullResult with
    | .ok => .ok ()
    | .gitFailure e => if e.exitCode = 0 then .ok () else .error "git pull failed"
    | .failure _ => .error "git pull failed"

/-- Model of Manager.ensureCorrectVersion: read the current commit; skip
checkout when a commit-type release already matches; otherwise check out. -/
def ensureCorrectVersion (g : GitOracle) (ref : Str) (refType : String) : Except String Unit :=
  match g.currentCommit with
  | .error e => .error e
  | .ok commit =>
    if refType = "commit" ∧ commit = ref then .ok ()
    else
      match g.checkoutResult with
      | .ok => .ok ()
      | .gitFailure _ => .error "git checkout failed"
      | .failure _ => .error "git checkout failed"

/-- Errors of Manager.EnsureRemoteStack. -/
inductive EnsureError where
  | loadFailed (msg : String)
  | versionRefError (stack : String) (ref : Str) (envVar : Str)
  | resolveFailed (stack : String)
  | cloneFailed (stack url : String)
  | checkoutFailed (stack : String) (ref : Str) (refType : String)
  deriving Repr, DecidableEq

/-- The tail of EnsureRemoteStack after the working copy is present: the
pull attempt's result is logged and discarded (graceful degradation), then
the version check/checkout decides the outcome. -/
def ensureAfterClone (stack : String) (d : RemoteStackDef) (ref : Str) (g : GitOracle) :
    Except EnsureError Unit :=
  let _pullOutcome := pullLatest g
  match ensureCorrectVersion g ref d.releaseType with
  | .error _ => .error (.checkoutFailed stack ref d.releaseType)
  | .ok _ => .ok ()

/-- Model of Manager.EnsureRemoteStack: load the definition, resolve the
release ref, clone when no working copy exists (fatal on failure), pull
best-effort, then ensure the resolved version is checked out. -/
def ensureRemoteStack (stack : String) (loadDef : Except String RemoteStackDef)
    (env : List (Str × Str)) (g : GitOracle) : Except EnsureError Unit :=
  match loadDef with
  | .error e => .error (.loadFailed e)
  | .ok d =>
    match resolveVersionRef d.releaseRef env with
    | .error _ =>
      if ['$', '\x7b'].isPrefixOf d.releaseRef ∧ ['\x7d'].isSuffixOf d.releaseRef then
        .error (.versionRefError stack d.releaseRef ((d.releaseRef.drop 2).dropLast))
      else .error (.resolveFailed stack)
    | .ok resolvedRef =>
      if g.repoExists then ensureAfterClone stack d resolvedRef g
      else
        match g.cloneErr with
        | some _ => .error (.cloneFailed stack d.url)
        | none => ensureAfterClone stack d resolvedRef g

/-! Cron-container cleanup (cronjobs package). Container names come from
GenerateContainerName, stack-service-cron-unixtime; CleanupOldContainers
groups by the text before "-cron-", sorts each group descending by full
name (Go string comparison, bytewise), and removes everything past the
retention count. Go's map iteration order is unspecified, so cleanup is
modelled with groups in first-encounter order; the claims at hand concern
a single group, where the order is determined. -/

/-- The "-cron-" separator of container names. -/
def cronSep : Str := ['-', 'c', 'r', 'o', 'n', '-']

/-- Model of GenerateContainerName: stack-service-cron-unixtime. -/
def generateContainerName (stack service : Str) (unixTime : Nat) : Str :=
  stack ++ '-' :: service ++ cronSep ++ Nat.toDigits 10 unixTime

/-- Model of strings.Split(name, "-cron-"): non-overlapping left-to-right
(the six separator characters are matched structurally). -/
def splitCron : Str → List Str
  | '-' :: 'c' :: 'r' :: 'o' :: 'n' :: '-' :: rest => [] :: splitCron rest
  | [] => [[]]
  | c :: rest =>
    match splitCron rest with
    | [] => [[c]]
    | l :: ls => (c :: l) :: ls

/-- Append a container name to its service group (first-encounter order of
groups; names within a group keep listing order). -/
def addGroup (key name : Str) : List (Str × List Str) → List (Str × List Str)
  | [] => [(key, [name])]
  | (k, g) :: gs =>
    if k = key then (k, g ++ [name]) :: gs else (k, g) :: addGroup key name gs

/-- Group container names by the text before "-cron-"; a name that does
not split into exactly two parts is skipped. -/
def groupCronAux (acc : List (Str × List Str)) : List Str → List (Str × List Str)
  | [] => acc
  | n :: ns =>
    match splitCron n with
    | [k, _] => groupCronAux (addGroup k n acc) ns
    | _ => groupCronAux acc ns

/-- Group container names by service key. -/
def groupCron (names : List Str) : List (Str × List Str) := groupCronAux [] names

/-- Descending bytewise name order (the sort.Slice comparator uses Go
string greater-than; ties cannot arise since container names are unique). -/
def nameGE (a b : Str) : Prop := b ≤ a

instance : DecidableRel nameGE := fun a b => inferInstanceAs (Decidable (b ≤ a))

instance : IsTotal Str nameGE := ⟨fun a b => le_total b a⟩

instance : IsTrans Str nameGE := ⟨fun _ _ _ h h' => le_trans h' h⟩

/-- Model of cronjobs.CleanupOldContainers on the listed container names:
for each service group larger than the retention count, remove every
container past the newest `retention` in descending name order. Only
`docker rm container` actions are issued; no other resource is touched. -/
def cleanupRemoved (retention : Nat) (names : List Str) : List Str :=
  (groupCron names).foldr
    (fun g acc =>
      (if g.2.length ≤ retention then []
       else (List.insertionSort nameGE g.2).drop retention) ++ acc)
    []

/-! Cron job discovery (cronjobs package). Compose files are external YAML
inputs; an entry's compose state records whether the file is absent,
unreadable, unparsable, or parsed into services. Label values are already
whitespace-trimmed key/value pairs per the labelMap unmarshaller. -/

/-- The schedule label key. -/
def scheduleLabel : String := "stackr.cron.schedule"

/-- The run-on-deploy label key. -/
def runOnDeployLabel : String := "stackr.cron.run_on_deploy"

/-- A service of a parsed compose file. -/
structure ServiceDef where
  name : String
  labels : List (String × Str)
  profiles : List Str
  deriving Repr, DecidableEq

/-- Model of cronjobs.cronJob. -/
structure CronJob where
  stack : String
  service : String
  schedule : Str
  profile : Str
  runOnDeploy : Bool
  composeFile : String
  deriving Repr, DecidableEq

/-- State of a stack directory's docker-compose.yml for job discovery. -/
inductive ComposeState where
  | absent
  | readError (msg : String)
  | parseError (msg : String)
  | parsed (services : List ServiceDef)
  deriving Repr, DecidableEq

/-- One entry of the stacks directory listing, for job discovery. -/
structure JobDirEntry where
  name : String
  isDir : Bool
  compose : ComposeState
  deriving Repr, DecidableEq

/-- Label lookup with the Go map default of the empty string. -/
def lookupLabel (labels : List (String × Str)) (k : String) : Str :=
  (labels.lookup k).getD []

/-- Model of strconv.ParseBool. -/
def parseBool (s : Str) : Option Bool :=
  if s = ['1'] ∨ s = ['t'] ∨ s = ['T'] ∨ s = "true".toList ∨ s = "TRUE".toList
      ∨ s = "True".toList then some true
  else if s = ['0'] ∨ s = ['f'] ∨ s = ['F'] ∨ s = "false".toList ∨ s = "FALSE".toList
      ∨ s = "False".toList then some false
  else none

/-- The job record built for one service of one stack. -/
def jobOfService (stacksDir stackName : String) (svc : ServiceDef) : CronJob where
  stack := stackName
  service := svc.name
  schedule := trimSpace (lookupLabel svc.labels scheduleLabel)
  profile := match svc.profiles with
    | [p] => trimSpace p
    | _ => []
  runOnDeploy :=
    (parseBool (trimSpace (lookupLabel svc.labels runOnDeployLabel))).getD false
  composeFile := joinPath (joinPath stacksDir stackName) "docker-compose.yml"

/-- Jobs contributed by one stack's services: a service is kept iff its
schedule label trims to a non-empty string (an absent label reads as the
empty string, indistinguishable from a present-but-empty one). -/
def jobsOfServices (stacksDir stackName : String) (svcs : List ServiceDef) : List CronJob :=
  svcs.filterMap fun svc =>
    if trimSpace (lookupLabel svc.labels scheduleLabel) = [] then none
    else some (jobOfService stacksDir stackName svc)

/-- Model of cronjobs.discoverJobs: scan all stack directories, skipping
non-directories and stacks without a compose file, failing on read/parse
errors, collecting the job of every service with a non-empty trimmed
schedule label. -/
def discoverJobs (stacksDir : String) : List JobDirEntry → Except String (List CronJob)
  | [] => .ok []
  | e :: rest =>
    if !e.isDir then discoverJobs stacksDir rest
    else
      match e.compose with
      | .absent => discoverJobs stacksDir rest
      | .readError m => .error m
      | .parseError m => .error m
      | .parsed svcs =>
        (discoverJobs stacksDir rest).map (jobsOfServices stacksDir e.name svcs ++ ·)

/-- Model of cronjobs.ExecuteJobManually: rediscover jobs, find the first
with the given stack and service, and execute it (the executed job is
returned; a custom command does not affect selection). -/
def executeJobManually (stacksDir : String) (entries : List JobDirEntry)
    (stack service : String) : Except String CronJob :=
  match discoverJobs stacksDir entries with
  | .error e => .error ("failed to discover jobs: " ++ e)
  | .ok jobs =>
    match jobs.find? fun j => j.stack == stack && j.service == service with
    | none => .error "cron job not found"
    | some j => .ok j

/-- Classification of one unambiguous directory entry by DiscoverStacks'
loop (none when the entry contributes no stack). -/
def classifyEntry (cfg : DiscoveryConfig) (e : DirEntry) : Option StackInfo :=
  if !e.isDir then none
  else if fileExistsStat e.composeStat ∧ fileExistsStat e.remoteDefStat then none
  else if fileExistsStat e.composeStat then some ⟨e.name, .isLocal, localComposePath cfg e.name⟩
  else if fileExistsStat e.remoteDefStat then
    e.remoteDef.map fun d => ⟨e.name, .isRemote, remoteComposePath cfg e.name d⟩
  else none

/-- The delay list the retry loop waits through when every attempt fails
and nothing is cancelled: the running delay, capped after each doubling. -/
def delaySeq (maxDelay backoff : Nat) : Nat → Nat → List Nat
  | _, 0 => []
  | d, fuel + 1 => d :: delaySeq maxDelay backoff (min (d * backoff) maxDelay) fuel

/-- A run of the removal tracker: seed once, then apply a sequence of
current-inventory updates; returns the final tracker and each reported
removal set, in order. -/
def inventorySteps (t : Tracker) : List (List String) → Tracker × List (Finset String)
  | [] => (t, [])
  | c :: cs =>
    let r := t.update c
    let rest := inventorySteps r.2 cs
    (rest.1, r.1 :: rest.2)

/-- Numeric value of a decimal digit string (the embedded unix timestamp
of a container name). -/
def natOfDigits (s : Str) : Nat :=
  s.foldl (fun n c => 10 * n + (c.toNat - 48)) 0

/-- The timestamp part of a container name key-cron-ts: everything after
the key and the six separator characters. -/
def tsOfName (key n : Str) : Str := n.drop (key.length + 6)

/-! ## Theorems -/

/-- C1: for every Deploy invocation whose stack execution fails after the
environment snapshot was taken, the environment file afterwards equals its
pre-call state byte-for-byte (mode included) when the restore write goes
through, and the surfaced error is the structured execution error whether
or not the restore itself succeeds (a restore failure is only logged). -/
theorem deploy_rollback_atomic (f : FileState) (stack : String) (tagEnv tag : Str) :
    (deploy f stack tagEnv tag true false true).1 = f ∧
    ∀ restoreOk : Bool,
      (deploy f stack tagEnv tag true false restoreOk).2 =
        .error (.commandError stack 1) := by
  refine ⟨rfl, ?_⟩
  intro r
  cases r <;> rfl

/-- C5: Tracker.Update returns exactly the set difference between the
previous snapshot and the current names and replaces the snapshot
unconditionally; after inventory A,B,C an update with A,C reports exactly
B removed, and repeating the same update reports nothing. -/
theorem tracker_update_set_difference :
    (∀ (t : Tracker) (current : List String),
        (t.update current).1 = t.known \ current.toFinset ∧
        (t.update current).2.known = current.toFinset ∧
        ((t.update current).2.update current).1 = ∅) ∧
    ((Tracker.seed ["A", "B", "C"]).update ["A", "C"]).1 = {"B"} ∧
    (((Tracker.seed ["A", "B", "C"]).update ["A", "C"]).2.update ["A", "C"]).1 = ∅ := by
  refine ⟨fun t current => ⟨?_, rfl, ?_⟩, by decide, by decide⟩
  · simp [Tracker.update, Finset.sdiff_eq_filter]
  · simp [Tracker.update, Finset.filter_eq_empty_iff]

/-- C9 (amended): Update passes a hardcoded 0644 permission argument and
Restore passes the snapshotted mode, but os.WriteFile applies permissions
only when it creates a file; Update and Restore always write the existing
environment file (Update read it first), so no Update, successful Deploy,
or rollback ever changes the file's permissions — a 0600 secrets file
stays 0600. -/
theorem update_mode_preserved (f : FileState) (stack : String) (tagEnv tag : Str) :
    (updateFile f tagEnv tag).1.mode = f.mode ∧
    (snapshotFile f).mode = f.mode ∧
    (deploy f stack tagEnv tag true true true).2 = .ok ⟨"ok", stack, tag⟩ ∧
    (deploy f stack tagEnv tag true true true).1.mode = f.mode ∧
    ∀ managerOk runOk restoreOk : Bool,
      (deploy f stack tagEnv tag managerOk runOk restoreOk).1.mode = f.mode := by
  refine ⟨rfl, rfl, rfl, rfl, ?_⟩
  intro m r rs
  cases m <;> cases r <;> cases rs <;> rfl

/-- C9 counterexample: a successful Update — and hence a successful
Deploy — on a 0600 secrets file leaves its mode 0600; the claimed rewrite
to mode 0644 does not happen. -/
theorem update_mode_change_refuted :
    (updateFile ⟨"A=1\n".toList, 0o600⟩ "A".toList "2".toList).1.mode = 0o600 ∧
    (deploy ⟨"A=1\n".toList, 0o600⟩ "s" "A".toList "2".toList true true true).1.mode ≠ 0o644 :=
  ⟨rfl, by decide⟩

theorem retryAux_exhausted (op cancel : Nat → Bool) (M b : Nat)
    (hop : ∀ i, op i = false) (hcancel : ∀ i, cancel i = false) :
    ∀ (fuel a d : Nat), retryAux op cancel M b a d fuel = (.exhausted, delaySeq M b d fuel) := by
  intro fuel
  induction fuel with
  | zero => intro a d; simp [retryAux, hop, delaySeq]
  | succ n ih => intro a d; simp [retryAux, hop, hcancel, delaySeq, ih]

theorem delaySeq_closed (M b : Nat) (hb : 1 ≤ b) :
    ∀ (fuel d : Nat), d ≤ M →
      delaySeq M b d fuel = (List.range fuel).map fun i => min (d * b ^ i) M := by
  intro fuel
  induction fuel with
  | zero => intro d _; simp [delaySeq]
  | succ n ih =>
    intro d hd
    rw [delaySeq, List.range_succ_eq_map, List.map_cons, List.map_map]
    refine congrArg₂ _ ?_ ?_
    · simp [Nat.min_eq_left hd]
    · rw [ih (min (d * b) M) (min_le_right _ _)]
      refine List.map_congr_left fun i _ => ?_
      rcases le_or_lt (d * b) M with hle | hlt
      · rw [Nat.min_eq_left hle]
        simp only [Function.comp]
        rw [pow_succ]
        congr 1
        ring
      · rw [Nat.min_eq_right hlt.le]
        have hbi : 1 ≤ b ^ i := Nat.one_le_pow _ _ (by omega)
        have h1 : M ≤ M * b ^ i := Nat.le_mul_of_pos_right M (by omega)
        have h2 : M ≤ d * b ^ (i + 1) := by
          calc M ≤ d * b := hlt.le
          _ ≤ d * b * b ^ i := Nat.le_mul_of_pos_right _ (by omega)
          _ = d * b ^ (i + 1) := by ring
        simp only [Function.comp]
        rw [Nat.min_eq_right h1, Nat.min_eq_right h2]

theorem retryAux_cancelled (op cancel : Nat → Bool) (M b : Nat)
    (hop : ∀ i, op i = false) :
    ∀ (fuel a d j : Nat), a ≤ j → j < a + fuel →
      (∀ i, i < j → cancel i = false) → cancel j = true →
      (retryAux op cancel M b a d fuel).1 = .cancelled := by
  intro fuel
  induction fuel with
  | zero => intro a d j h1 h2 _ _; omega
  | succ n ih =>
    intro a d j h1 h2 hlow hj
    by_cases ha : a = j
    · subst ha
      simp [retryAux, hop, hj]
    · have hca : cancel a = false := hlow a (by omega)
      simp only [retryAux, hop, hca, Bool.false_eq_true, if_false]
      exact ih (a + 1) _ j (by omega) (by omega) hlow hj

/-- C4 (amended): when every attempt fails and the initial delay does not
exceed the cap, the wait after the i-th failed attempt (i = 1..maxAttempts-1)
is min(initialDelay·multiplier^(i-1), maxDelay) and the call ends exhausted
after the maxAttempts-th attempt — there are maxAttempts−1 waits, so the
default 5-attempt policy waits 30s/60s/120s/240s and the capped 300s value
is computed but never waited; cancellation during a wait yields the
cancellation outcome, distinct from exhaustion. -/
theorem retry_backoff_policy :
    (∀ (cfg : RetryConfig) (op cancel : Nat → Bool),
        1 ≤ cfg.maxAttempts → cfg.initialDelay ≤ cfg.maxDelay → 1 ≤ cfg.backoff →
        (∀ i, op i = false) →
        ((∀ i, cancel i = false) →
          retryImagePull op cancel cfg =
            (.exhausted, (List.range (cfg.maxAttempts - 1)).map fun i =>
              min (cfg.initialDelay * cfg.backoff ^ i) cfg.maxDelay)) ∧
        (∀ j, 1 ≤ j → j < cfg.maxAttempts → (∀ i, i < j → cancel i = false) →
          cancel j = true → (retryImagePull op cancel cfg).1 = .cancelled)) ∧
    RetryOutcome.cancelled ≠ RetryOutcome.exhausted := by
  refine ⟨?_, by decide⟩
  intro cfg op cancel hmax hinit hb hop
  rcases hcfg : cfg.maxAttempts with _ | n
  · omega
  constructor
  · intro hcancel
    simp only [retryImagePull, hcfg]
    rw [retryAux_exhausted op cancel _ _ hop hcancel,
      delaySeq_closed _ _ hb n cfg.initialDelay hinit]
    simp
  · intro j hj1 hj2 hlow hj
    simp only [retryImagePull, hcfg]
    exact retryAux_cancelled op cancel _ _ hop n 1 cfg.initialDelay j hj1
      (by omega) hlow hj

/-- C4 counterexample: under the default image-pull policy with every
attempt failing, only four waits occur (30s, 60s, 120s, 240s in
nanoseconds); the inter-attempt delay list is not the claimed five-element
30s/60s/120s/240s/300s schedule. -/
theorem retry_default_policy_four_waits :
    retryImagePull (fun _ => false) (fun _ => false) defaultRetryConfig =
      (.exhausted, [30000000000, 60000000000, 120000000000, 240000000000]) ∧
    (retryImagePull (fun _ => false) (fun _ => false) defaultRetryConfig).2 ≠
      [30000000000, 60000000000, 120000000000, 240000000000, 300000000000] :=
  ⟨by decide, by decide⟩

/-- Witness for C4 on the spec's example configuration. -/
theorem retry_backoff_policy_witness :
    retryImagePull (fun _ => false) (fun _ => false) ⟨4, 10, 100, 2⟩ =
      (.exhausted, [10, 20, 40]) ∧
    (retryImagePull (fun _ => false) (fun i => i == 2) ⟨4, 10, 100, 2⟩).1 = .cancelled := by
  constructor
  · have h := (retry_backoff_policy.1 ⟨4, 10, 100, 2⟩ (fun _ => false) (fun _ => false)
      (by decide) (by decide) (by decide) (fun _ => rfl)).1 (fun _ => rfl)
    rw [h]
    decide
  · exact (retry_backoff_policy.1 ⟨4, 10, 100, 2⟩ (fun _ => false) (fun i => i == 2)
      (by decide) (by decide) (by decide) (fun _ => rfl)).2 2 (by decide) (by decide)
      (fun i hi => by simp only [beq_eq_false_iff_ne]; omega) (by decide)

theorem ensureAfterClone_ok (stack : String) (d : RemoteStackDef) (r c : Str) (g : GitOracle)
    (hcommit : g.currentCommit = .ok c)
    (hver : (d.releaseType = "commit" ∧ c = r) ∨ g.checkoutResult = .ok) :
    ensureAfterClone stack d r g = .ok () := by
  unfold ensureAfterClone ensureCorrectVersion
  rw [hcommit]
  by_cases hc2 : d.releaseType = "commit" ∧ c = r
  · simp [hc2]
  · rcases hver with hver | hver
    · exact absurd hver hc2
    · simp [hc2, hver]

/-- C3: for a remote stack whose working copy exists, any fetch or pull
failure is non-fatal — EnsureRemoteStack still succeeds for every fetch and
pull outcome, provided the definition loads, the ref resolves and the
version check/checkout succeeds; only with no working copy is a clone
failure fatal. -/
theorem remote_sync_graceful_degradation (stack : String) (d : RemoteStackDef)
    (env : List (Str × Str)) (g : GitOracle) (r c : Str)
    (hres : resolveVersionRef d.releaseRef env = .ok r)
    (hcommit : g.currentCommit = .ok c)
    (hver : (d.releaseType = "commit" ∧ c = r) ∨ g.checkoutResult = .ok) :
    (g.repoExists = true →
      ∀ (fetchE : Option String) (pullE : GitCallResult),
        ensureRemoteStack stack (.ok d) env
          { g with fetchErr := fetchE, pullResult := pullE } = .ok ()) ∧
    (∀ msg, ensureRemoteStack stack (.ok d) env
        { g with repoExists := false, cloneErr := some msg } =
      .error (.cloneFailed stack d.url)) := by
  constructor
  · intro hex fetchE pullE
    have hok : ensureAfterClone stack d r { g with fetchErr := fetchE, pullResult := pullE }
        = .ok () := ensureAfterClone_ok stack d r c _ hcommit hver
    simp only [ensureRemoteStack, hres]
    simpa [hex] using hok
  · intro msg
    simp [ensureRemoteStack, hres]

/-- Witness for C3: unreachable repository host (fetch and pull failing) on
an already-cloned working copy, with a checkout that succeeds; and the
clone-failure case. -/
theorem remote_sync_graceful_degradation_witness :
    ensureRemoteStack "myapp"
        (.ok ⟨"https://example/repo.git", "main", ".", "tag", "${V}".toList⟩)
        [("V".toList, "v1.0.0".toList)]
        ⟨true, none, some "network unreachable", .failure "network unreachable",
          .ok "abc123".toList, .ok⟩ = .ok () ∧
    ensureRemoteStack "myapp"
        (.ok ⟨"https://example/repo.git", "main", ".", "tag", "${V}".toList⟩)
        [("V".toList, "v1.0.0".toList)]
        ⟨false, some "auth failed", none, .ok, .ok "abc123".toList, .ok⟩ =
      .error (.cloneFailed "myapp" "https://example/repo.git") := by
  have h := remote_sync_graceful_degradation "myapp"
    ⟨"https://example/repo.git", "main", ".", "tag", "${V}".toList⟩
    [("V".toList, "v1.0.0".toList)]
    ⟨true, none, none, .ok, .ok "abc123".toList, .ok⟩
    "v1.0.0".toList "abc123".toList (by decide) rfl (Or.inr rfl)
  exact ⟨h.1 rfl (some "network unreachable") (.failure "network unreachable"), h.2 "auth failed"⟩

theorem discoverJobs_ok_iff (stacksDir : String) :
    ∀ (entries : List JobDirEntry) (jobs : List CronJob),
      discoverJobs stacksDir entries = .ok jobs →
      ∀ j, j ∈ jobs ↔ ∃ e ∈ entries, e.isDir = true ∧ ∃ svcs, e.compose = .parsed svcs ∧
        ∃ svc ∈ svcs, trimSpace (lookupLabel svc.labels scheduleLabel) ≠ [] ∧
          j = jobOfService stacksDir e.name svc := by
  intro entries
  induction entries with
  | nil =>
    intro jobs h j
    simp only [discoverJobs, Except.ok.injEq] at h
    subst h
    simp
  | cons e rest ih =>
    intro jobs h j
    by_cases hdir : e.isDir = true
    · rw [discoverJobs] at h
      simp only [hdir, Bool.not_true, Bool.false_eq_true, if_false] at h
      rcases hcomp : e.compose with _ | m | m | svcs
      all_goals rw [hcomp] at h
      · rw [ih jobs h j]
        constructor
        · rintro ⟨e2, he2, rest_⟩
          exact ⟨e2, List.mem_cons_of_mem _ he2, rest_⟩
        · rintro ⟨e2, he2, h2⟩
          rcases List.mem_cons.mp he2 with rfl | he2
          · rcases h2 with ⟨_, svcs2, hsvcs2, _⟩
            rw [hcomp] at hsvcs2
            cases hsvcs2
          · exact ⟨e2, he2, h2⟩
      · cases h
      · cases h
      · rcases hrest : discoverJobs stacksDir rest with er | jobs'
        · rw [hrest] at h; cases h
        · rw [hrest] at h
          simp only [Except.map, Except.ok.injEq] at h
          subst h
          rw [List.mem_append]
          constructor
          · rintro (hpre | hin)
            · rw [jobsOfServices, List.mem_filterMap] at hpre
              rcases hpre with ⟨svc, hsvc, hf⟩
              by_cases hs : trimSpace (lookupLabel svc.labels scheduleLabel) = []
              · rw [if_pos hs] at hf; cases hf
              · rw [if_neg hs] at hf
                exact ⟨e, List.mem_cons_self e rest, hdir, svcs, hcomp,
                  svc, hsvc, hs, (Option.some.injEq _ _ ▸ hf).symm⟩
            · rcases (ih jobs' hrest j).mp hin with ⟨e2, he2, h2⟩
              exact ⟨e2, List.mem_cons_of_mem _ he2, h2⟩
          · rintro ⟨e2, he2, hdir2, svcs2, hcomp2, svc, hsvc, hs, hj⟩
            rcases List.mem_cons.mp he2 with rfl | he2
            · left
              rw [hcomp] at hcomp2
              cases hcomp2
              rw [jobsOfServices, List.mem_filterMap]
              exact ⟨svc, hsvc, by rw [if_neg hs, hj]⟩
            · right
              exact (ih jobs' hrest j).mpr ⟨e2, he2, hdir2, svcs2, hcomp2, svc, hsvc, hs, hj⟩
    · rw [discoverJobs] at h
      simp only [Bool.not_eq_true] at hdir
      simp only [hdir, Bool.not_false, if_true] at h
      rw [ih jobs h j]
      constructor
      · rintro ⟨e2, he2, rest_⟩
        exact ⟨e2, List.mem_cons_of_mem _ he2, rest_⟩
      · rintro ⟨e2, he2, h2⟩
        rcases List.mem_cons.mp he2 with rfl | he2
        · rcases h2 with ⟨hd2, _⟩
          rw [hdir] at hd2
          cases hd2
        · exact ⟨e2, he2, h2⟩

/-- C8 (amended): a service is discovered as a job iff its schedule label
trims to a non-empty string; a present-but-empty (or absent) schedule
label means the service is not a job at all — it is skipped by discovery
and manual execution of it fails with job-not-found. Every discovered
job's schedule is non-empty. -/
theorem job_discovery_nonempty_schedule (stacksDir : String) (entries : List JobDirEntry)
    (jobs : List CronJob) (h : discoverJobs stacksDir entries = .ok jobs) :
    (∀ j ∈ jobs, j.schedule ≠ []) ∧
    (∀ j, j ∈ jobs ↔ ∃ e ∈ entries, e.isDir = true ∧ ∃ svcs, e.compose = .parsed svcs ∧
      ∃ svc ∈ svcs, trimSpace (lookupLabel svc.labels scheduleLabel) ≠ [] ∧
        j = jobOfService stacksDir e.name svc) ∧
    (∀ stack service, (∀ j ∈ jobs, ¬(j.stack = stack ∧ j.service = service)) →
      executeJobManually stacksDir entries stack service = .error "cron job not found") := by
  refine ⟨?_, discoverJobs_ok_iff stacksDir entries jobs h, ?_⟩
  · intro j hj
    rcases (discoverJobs_ok_iff stacksDir entries jobs h j).mp hj with
      ⟨e, _, _, svcs, _, svc, _, hs, rfl⟩
    exact hs
  · intro stack service hnone
    rw [executeJobManually, h]
    have : jobs.find? (fun j => j.stack == stack && j.service == service) = none := by
      rw [List.find?_eq_none]
      intro j hj
      have := hnone j hj
      simp only [Bool.and_eq_true, beq_iff_eq]
      tauto
    simp [this]

/-- C8 counterexample: a service carrying the schedule label with an
explicitly empty value is not discovered as a job (manual-only or
otherwise), and manual invocation of it fails with job-not-found. -/
theorem job_discovery_empty_label_skipped :
    discoverJobs "/stacks"
        [⟨"st", true, .parsed [⟨"svc", [("stackr.cron.schedule", [])], []⟩]⟩] = .ok [] ∧
    executeJobManually "/stacks"
        [⟨"st", true, .parsed [⟨"svc", [("stackr.cron.schedule", [])], []⟩]⟩] "st" "svc" =
      .error "cron job not found" :=
  ⟨by decide, by decide⟩

/-- Witness for C8 on a stack with one scheduled service. -/
theorem job_discovery_nonempty_schedule_witness :
    (jobOfService "/stacks" "st"
        ⟨"svc", [("stackr.cron.schedule", "0 * * * *".toList)], []⟩).schedule ≠ [] ∧
    executeJobManually "/stacks"
        [⟨"st", true, .parsed [⟨"svc", [("stackr.cron.schedule", "0 * * * *".toList)], []⟩]⟩]
        "st" "other" = .error "cron job not found" := by
  have h := job_discovery_nonempty_schedule "/stacks"
    [⟨"st", true, .parsed [⟨"svc", [("stackr.cron.schedule", "0 * * * *".toList)], []⟩]⟩]
    [jobOfService "/stacks" "st" ⟨"svc", [("stackr.cron.schedule", "0 * * * *".toList)], []⟩]
    (by decide)
  refine ⟨h.1 _ (by decide), h.2.2 "st" "other" (by decide)⟩

theorem exceptMap_ok {ε α β : Type} {f : α → β} {x : Except ε α} {b : β}
    (h : x.map f = .ok b) : ∃ a, x = .ok a ∧ b = f a := by
  cases x with
  | error e => cases h
  | ok a => exact ⟨a, rfl, by cases h; rfl⟩

theorem discoverLoop_ambiguous_fails (cfg : DiscoveryConfig) :
    ∀ (entries : List DirEntry) (e : DirEntry), e ∈ entries → e.isDir = true →
      fileExistsStat e.composeStat = true → fileExistsStat e.remoteDefStat = true →
      ∀ l, discoverLoop cfg entries ≠ .ok l := by
  intro entries
  induction entries with
  | nil => intro e he; cases he
  | cons a rest ih =>
    intro e he hdir hl hr l hok
    rcases List.mem_cons.mp he with rfl | he
    · rw [discoverLoop] at hok
      simp [hdir, hl, hr] at hok
    · rw [discoverLoop] at hok
      by_cases had : a.isDir = true
      · simp only [had, Bool.not_true, Bool.false_eq_true, if_false] at hok
        by_cases h1 : fileExistsStat a.composeStat = true ∧ fileExistsStat a.remoteDefStat = true
        · simp [h1] at hok
        · rw [if_neg (by simpa using h1)] at hok
          by_cases h2 : fileExistsStat a.composeStat = true
          · rw [if_pos h2] at hok
            rcases exceptMap_ok hok with ⟨l2, hl2, _⟩
            exact ih e he hdir hl hr l2 hl2
          · rw [if_neg h2] at hok
            by_cases h3 : fileExistsStat a.remoteDefStat = true
            · rw [if_pos h3] at hok
              rcases hd : a.remoteDef with _ | d
              all_goals rw [hd] at hok
              · cases hok
              · rcases exceptMap_ok hok with ⟨l2, hl2, _⟩
                exact ih e he hdir hl hr l2 hl2
            · rw [if_neg h3] at hok
              exact ih e he hdir hl hr l hok
      · simp only [Bool.not_eq_true] at had
        simp only [had, Bool.not_false, if_true] at hok
        exact ih e he hdir hl hr l hok

theorem discoverLoop_ok (cfg : DiscoveryConfig) :
    ∀ entries : List DirEntry,
      (∀ e ∈ entries, ¬(e.isDir = true ∧ fileExistsStat e.composeStat = true ∧
          fileExistsStat e.remoteDefStat = true)) →
      (∀ e ∈ entries, e.isDir = true → fileExistsStat e.composeStat = false →
          fileExistsStat e.remoteDefStat = true → e.remoteDef ≠ none) →
      discoverLoop cfg entries = .ok (entries.filterMap (classifyEntry cfg)) := by
  intro entries
  induction entries with
  | nil => intro _ _; rfl
  | cons a rest ih =>
    intro hamb hload
    have hrest := ih (fun e he => hamb e (List.mem_cons_of_mem _ he))
      (fun e he => hload e (List.mem_cons_of_mem _ he))
    rw [discoverLoop, List.filterMap_cons]
    by_cases hdir : a.isDir = true
    · by_cases hl : fileExistsStat a.composeStat = true
      · have hr : ¬ fileExistsStat a.remoteDefStat = true := by
          intro hc
          exact hamb a (List.mem_cons_self a rest) ⟨hdir, hl, hc⟩
        simp [classifyEntry, hdir, hl, hr, hrest, Except.map]
      · by_cases hr : fileExistsStat a.remoteDefStat = true
        · rcases hd : a.remoteDef with _ | d
          · exact absurd hd
              (hload a (List.mem_cons_self a rest) hdir (by simpa using hl) hr)
          · simp [classifyEntry, hdir, hl, hr, hd, hrest, Except.map]
        · simp [classifyEntry, hdir, hl, hr, hrest]
    · simp only [Bool.not_eq_true] at hdir
      simp [classifyEntry, hdir, hrest]

/-- C2: a stack directory with both a local compose file and a remote
descriptor makes single-stack resolution fail with the ambiguity error,
and bulk discovery over any listing containing such an entry returns no
list at all; with no ambiguous entry (and loadable remote definitions)
discovery returns exactly the classified stacks, sorted by name. -/
theorem discovery_ambiguity_rejection (cfg : DiscoveryConfig) :
    (∀ e : DirEntry, e.isDir = true → fileExistsStat e.composeStat = true →
      fileExistsStat e.remoteDefStat = true →
      resolveStackPath cfg e = .error (.ambiguous e.name)) ∧
    (∀ (entries : List DirEntry) (e : DirEntry), e ∈ entries → e.isDir = true →
      fileExistsStat e.composeStat = true → fileExistsStat e.remoteDefStat = true →
      ∀ l, discoverStacks cfg entries ≠ .ok l) ∧
    (∀ entries : List DirEntry,
      (∀ e ∈ entries, ¬(e.isDir = true ∧ fileExistsStat e.composeStat = true ∧
          fileExistsStat e.remoteDefStat = true)) →
      (∀ e ∈ entries, e.isDir = true → fileExistsStat e.composeStat = false →
          fileExistsStat e.remoteDefStat = true → e.remoteDef ≠ none) →
      ∃ l, discoverStacks cfg entries = .ok l ∧ l.Sorted nameLE ∧
        ∀ s, s ∈ l ↔ ∃ e ∈ entries, classifyEntry cfg e = some s) := by
  refine ⟨?_, ?_, ?_⟩
  · intro e h1 h2 h3
    simp [resolveStackPath, h1, h2, h3]
  · intro entries e he hdir hl hr l hok
    rw [discoverStacks] at hok
    rcases exceptMap_ok hok with ⟨l2, hl2, _⟩
    exact discoverLoop_ambiguous_fails cfg entries e he hdir hl hr l2 hl2
  · intro entries hamb hload
    refine ⟨List.insertionSort nameLE (entries.filterMap (classifyEntry cfg)), ?_, ?_, ?_⟩
    · rw [discoverStacks, discoverLoop_ok cfg entries hamb hload]
      rfl
    · exact List.sorted_insertionSort nameLE _
    · intro s
      rw [(List.perm_insertionSort nameLE _).mem_iff, List.mem_filterMap]

/-- Witness for C2: one ambiguous entry poisons resolution and the whole
discovery pass; without it, discovery returns the sorted classified list. -/
theorem discovery_ambiguity_rejection_witness :
    resolveStackPath ⟨"/stacks", "/remote"⟩ ⟨"amb", true, some false, some false, none⟩ =
      .error (.ambiguous "amb") ∧
    (∀ l, discoverStacks ⟨"/stacks", "/remote"⟩
      [⟨"ok1", true, some false, none, none⟩, ⟨"amb", true, some false, some false, none⟩]
      ≠ .ok l) ∧
    (∃ l, discoverStacks ⟨"/stacks", "/remote"⟩
        [⟨"b", true, some false, none, none⟩, ⟨"a", true, some false, none, none⟩] = .ok l ∧
      l.Sorted nameLE ∧
      ∀ s, s ∈ l ↔ ∃ e ∈ [(⟨"b", true, some false, none, none⟩ : DirEntry),
        ⟨"a", true, some false, none, none⟩], classifyEntry ⟨"/stacks", "/remote"⟩ e = some s) := by
  have h := discovery_ambiguity_rejection ⟨"/stacks", "/remote"⟩
  refine ⟨h.1 _ rfl rfl rfl, ?_, ?_⟩
  · exact fun l => h.2.1 _ ⟨"amb", true, some false, some false, none⟩
      (by decide) rfl rfl rfl l
  · exact h.2.2 _ (by decide) (by decide)

theorem inventorySteps_not_mem (name : String) :
    ∀ (updates : List (List String)) (t : Tracker), name ∉ t.known →
      (∀ c ∈ updates, name ∉ c) →
      (∀ S ∈ (inventorySteps t updates).2, name ∉ S) ∧
      name ∉ (inventorySteps t updates).1.known := by
  intro updates
  induction updates with
  | nil =>
    intro t ht _
    exact ⟨fun S hS => absurd hS (by simp [inventorySteps]), ht⟩
  | cons c cs ih =>
    intro t ht hc
    have h1 : name ∉ (t.update c).1 := fun hmem =>
      ht (Finset.mem_of_mem_filter _ hmem)
    have h2 : name ∉ (t.update c).2.known := by
      simp only [Tracker.update, List.mem_toFinset]
      exact fun hx => hc c (List.mem_cons_self c cs) hx
    have hrest := ih (t.update c).2 h2 (fun u hu => hc u (List.mem_cons_of_mem _ hu))
    refine ⟨?_, hrest.2⟩
    intro S hS
    rw [inventorySteps] at hS
    rcases List.mem_cons.mp hS with rfl | hS
    · exact h1
    · exact hrest.1 S hS

/-- C10: the stack-name inventory only ever contains directories whose
docker-compose.yml path exists, so a remote-only stack (descriptor only,
no local compose file) is never in any snapshot seeded and updated from
that inventory, is never reported removed by any update in such a run, and
every reported removal set only contains previously tracked names. -/
theorem remote_only_stack_never_tracked :
    (∀ (entries : List DirEntry) (name : String),
        (∀ e ∈ entries, e.name = name → e.composeStat = none) →
        name ∉ loadStackNames entries) ∧
    (∀ (start : List String) (updates : List (List String)) (name : String),
        name ∉ start → (∀ c ∈ updates, name ∉ c) →
        (∀ S ∈ (inventorySteps (Tracker.seed start) updates).2, name ∉ S) ∧
        name ∉ (inventorySteps (Tracker.seed start) updates).1.known) ∧
    (∀ (t : Tracker) (current : List String), (checkForRemovals t current).1 ⊆ t.known) := by
  refine ⟨?_, ?_, ?_⟩
  · intro entries name hnone hmem
    rw [loadStackNames, List.mem_filterMap] at hmem
    rcases hmem with ⟨e, he, hsome⟩
    by_cases hq : e.isDir = true ∧ e.composeStat.isSome = true
    · rw [if_pos hq] at hsome
      cases hsome
      rw [hnone e he rfl] at hq
      cases hq.2
    · rw [if_neg hq] at hsome
      cases hsome
  · intro start updates name hstart hupd
    exact inventorySteps_not_mem name updates (Tracker.seed start)
      (by simpa [Tracker.seed] using hstart) hupd
  · intro t current
    exact Finset.filter_subset _ _

/-- Witness for C10: a remote-only directory entry is absent from the
inventory, and a run over inventories without it never reports it. -/
theorem remote_only_stack_never_tracked_witness :
    "remote1" ∉ loadStackNames
        [⟨"remote1", true, none, some false,
            some ⟨"https://example/r.git", "main", ".", "tag", "v1".toList⟩⟩,
          ⟨"local1", true, some false, none, none⟩] ∧
    ∀ S ∈ (inventorySteps (Tracker.seed ["local1"]) [["local1", "x"], ["x"]]).2,
      "remote1" ∉ S := by
  constructor
  · exact remote_only_stack_never_tracked.1 _ "remote1" (by decide)
  · exact (remote_only_stack_never_tracked.2.1 ["local1"] [["local1", "x"], ["x"]]
      "remote1" (by decide) (by decide)).1

theorem splitOnChar_ne_nil (sep : Char) (s : Str) : splitOnChar sep s ≠ [] := by
  cases s with
  | nil => simp [splitOnChar]
  | cons c rest =>
    simp only [splitOnChar]
    cases h : splitOnChar sep rest with
    | nil => simp
    | cons l ls => by_cases hc : c = sep <;> simp [hc]

theorem splitOnChar_not_mem (sep : Char) :
    ∀ (s : Str) (l : Str), l ∈ splitOnChar sep s → sep ∉ l := by
  intro s
  induction s with
  | nil =>
    intro l hl
    simp only [splitOnChar, List.mem_singleton] at hl
    subst hl
    simp
  | cons c rest ih =>
    intro l hl
    rw [splitOnChar] at hl
    rcases hsp : splitOnChar sep rest with _ | ⟨l0, ls⟩
    · exact absurd hsp (splitOnChar_ne_nil sep rest)
    · rw [hsp] at hl
      have hl : l ∈ if c = sep then [] :: l0 :: ls else (c :: l0) :: ls := hl
      by_cases hc : c = sep
      · rw [if_pos hc] at hl
        rcases List.mem_cons.mp hl with rfl | hl
        · simp
        · exact ih l (hsp ▸ hl)
      · rw [if_neg hc] at hl
        rcases List.mem_cons.mp hl with rfl | hl
        · intro hmem
          rcases List.mem_cons.mp hmem with rfl | hmem
          · exact hc rfl
          · exact ih l0 (hsp ▸ List.mem_cons_self l0 ls) hmem
        · exact ih l (hsp ▸ List.mem_cons_of_mem l0 hl)

theorem splitOnChar_append_sep (sep : Char) :
    ∀ (a t : Str), sep ∉ a → splitOnChar sep (a ++ sep :: t) = a :: splitOnChar sep t := by
  intro a
  induction a with
  | nil =>
    intro t _
    rw [List.nil_append, splitOnChar]
    rcases h : splitOnChar sep t with _ | ⟨l, ls⟩
    · exact absurd h (splitOnChar_ne_nil sep t)
    · simp
  | cons c a' ih =>
    intro t hmem
    have hc : ¬ c = sep := fun h => hmem (h ▸ List.mem_cons_self c a')
    rw [List.cons_append]
    simp only [splitOnChar]
    rw [ih t fun h => hmem (List.mem_cons_of_mem c h)]
    simp [hc]

theorem splitOnChar_joinNL :
    ∀ ls : List Str, ls ≠ [] → (∀ l ∈ ls, '\n' ∉ l) →
      splitOnChar '\n' (joinNL ls ++ ['\n']) = ls ++ [[]] := by
  intro ls
  induction ls with
  | nil => intro h; cases h rfl
  | cons a ls' ih =>
    intro _ hmem
    rcases ls' with _ | ⟨b, ls''⟩
    · rw [joinNL]
      have h := splitOnChar_append_sep '\n' a [] (hmem a (List.mem_cons_self a []))
      simpa [splitOnChar] using h
    · have hih := ih (List.cons_ne_nil b ls'') fun l hl => hmem l (List.mem_cons_of_mem a hl)
      rw [joinNL, show (a ++ '\n' :: joinNL (b :: ls'')) ++ ['\n'] =
        a ++ '\n' :: (joinNL (b :: ls'') ++ ['\n']) by simp,
        splitOnChar_append_sep '\n' a _ (hmem a (List.mem_cons_self a _)), hih]
      · rfl
      · exact List.cons_ne_nil b ls''

theorem updateLines_fst (key value : Str) :
    ∀ ls : List Str, (updateLines key value ls).1 =
      ls.map fun l => if isTargetLine key l then keyValueLine key value else l := by
  intro ls
  induction ls with
  | nil => rfl
  | cons l rest ih => by_cases h : isTargetLine key l <;> simp [updateLines, h, ih]

theorem updateLines_snd (key value : Str) :
    ∀ ls : List Str, (updateLines key value ls).2 = lastTargetValue key ls := by
  intro ls
  induction ls with
  | nil => rfl
  | cons l rest ih =>
    rw [updateLines, lastTargetValue, List.filterMap_cons]
    by_cases ht : isTargetLine key l = true
    · rcases hsp : splitEq l with _ | p
      · rw [isTargetLine, hsp] at ht
        simp at ht
      · have htv : targetValue key l = some p.2 := by
          rw [targetValue, if_pos ht, hsp]
          rfl
        rw [htv]
        simp only [ht, if_true, hsp, ih, lastTargetValue]
        rw [List.getLast?_cons]
        cases h2 : (List.filterMap (targetValue key) rest).getLast? with
        | none => simp [Option.map]
        | some v => simp [Option.map]
    · have htv : targetValue key l = none := by rw [targetValue, if_neg ht]
      rw [htv]
      simp [ht, ih, lastTargetValue]

theorem trimSpace_head_not_space {key : Str} (h : trimSpace key = key) :
    ∀ c tl, key = c :: tl → isSpaceChar c = false := by
  intro c tl hk
  subst hk
  by_contra hc
  simp only [Bool.not_eq_false] at hc
  have h1 : ((c :: tl).dropWhile isSpaceChar).length ≤ tl.length := by
    rw [List.dropWhile_cons, if_pos hc]
    exact (List.dropWhile_sublist _).length_le
  have h2 : (trimSpace (c :: tl)).length ≤ ((c :: tl).dropWhile isSpaceChar).length := by
    rw [trimSpace]
    calc ((((c :: tl).dropWhile isSpaceChar).reverse.dropWhile isSpaceChar).reverse).length
        = (((c :: tl).dropWhile isSpaceChar).reverse.dropWhile isSpaceChar).length :=
          List.length_reverse _
      _ ≤ ((c :: tl).dropWhile isSpaceChar).reverse.length := (List.dropWhile_sublist _).length_le
      _ = ((c :: tl).dropWhile isSpaceChar).length := List.length_reverse _
  rw [h] at h2
  simp only [List.length_cons] at h2
  omega

theorem splitEq_append : ∀ (a b : Str), '=' ∉ a → splitEq (a ++ '=' :: b) = some (a, b) := by
  intro a
  induction a with
  | nil =>
    intro b _
    simp [splitEq]
  | cons c a' ih =>
    intro b hmem
    have hc : ¬ c = '=' := fun h => hmem (h ▸ List.mem_cons_self c a')
    rw [List.cons_append, splitEq, if_neg hc, ih b fun h => hmem (List.mem_cons_of_mem _ h)]
    rfl

theorem trimSpace_keyValueLine {key : Str} (value : Str) (htrim : trimSpace key = key)
    (hne : key ≠ []) :
    ∃ w : Str, trimSpace (keyValueLine key value) = key ++ '=' :: w := by
  rcases key with _ | ⟨k0, ktl⟩
  · exact absurd rfl hne
  have hk0 : isSpaceChar k0 = false := trimSpace_head_not_space htrim k0 ktl rfl
  have hdw : (keyValueLine (k0 :: ktl) value).dropWhile isSpaceChar =
      keyValueLine (k0 :: ktl) value := by
    rw [keyValueLine, List.cons_append, List.dropWhile_cons, if_neg (by simp [hk0])]
  have hrev : (keyValueLine (k0 :: ktl) value).reverse =
      value.reverse ++ '=' :: (k0 :: ktl).reverse := by
    rw [keyValueLine, List.reverse_append, List.reverse_cons]
    simp
  have heqsp : isSpaceChar '=' = false := by decide
  rw [trimSpace, hdw, hrev, List.dropWhile_append]
  by_cases hemp : (value.reverse.dropWhile isSpaceChar).isEmpty = true
  · rw [if_pos hemp, List.dropWhile_cons, if_neg (by simp [heqsp])]
    refine ⟨[], ?_⟩
    simp
  · rw [if_neg hemp]
    refine ⟨(value.reverse.dropWhile isSpaceChar).reverse, ?_⟩
    simp [List.reverse_append, List.append_assoc]

theorem isTargetLine_keyValueLine (key value : Str) (htrim : trimSpace key = key)
    (hne : key ≠ []) (hhash : key.head? ≠ some '#') (heq : '=' ∉ key) :
    isTargetLine key (keyValueLine key value) = true := by
  rcases trimSpace_keyValueLine value htrim hne with ⟨w, hw⟩
  have hbc : isBlankOrComment (keyValueLine key value) = false := by
    rcases key with _ | ⟨k0, ktl⟩
    · exact absurd rfl hne
    have hk0 : k0 ≠ '#' := by
      intro h
      exact hhash (by rw [h]; rfl)
    rw [isBlankOrComment, hw]
    simp [hk0]
  rw [isTargetLine, hbc]
  simp only [keyValueLine] at *
  rw [splitEq_append key value heq]
  simp [htrim]

theorem isTargetLine_nil (key : Str) : isTargetLine key [] = false := rfl

theorem map_replace_filter (key value : Str)
    (hkv : isTargetLine key (keyValueLine key value) = true) :
    ∀ ls : List Str,
      ((ls.map fun l => if isTargetLine key l then keyValueLine key value else l).filter
        fun l => !isTargetLine key l) = ls.filter fun l => !isTargetLine key l := by
  intro ls
  induction ls with
  | nil => rfl
  | cons l rest ih =>
    by_cases h : isTargetLine key l = true
    · simp [h, hkv, ih]
    · simp [h, ih]

theorem map_replace_countP (key value : Str)
    (hkv : isTargetLine key (keyValueLine key value) = true) :
    ∀ ls : List Str,
      ((ls.map fun l => if isTargetLine key l then keyValueLine key value else l).countP
        fun l => isTargetLine key l) = ls.countP fun l => isTargetLine key l := by
  intro ls
  induction ls with
  | nil => rfl
  | cons l rest ih =>
    by_cases h : isTargetLine key l = true
    · simp [List.countP_cons, h, hkv, ih]
    · simp [List.countP_cons, h, ih]

theorem map_replace_target (key value : Str) :
    ∀ (ls : List Str) (l : Str),
      l ∈ (ls.map fun l => if isTargetLine key l then keyValueLine key value else l) →
      isTargetLine key l = true → l = keyValueLine key value := by
  intro ls l hl ht
  rcases List.mem_map.mp hl with ⟨x, _, rfl⟩
  by_cases h : isTargetLine key x = true
  · rw [if_pos h]
  · rw [if_neg h] at ht ⊢
    exact absurd ht h

theorem effLines_no_newline (content : Str) : ∀ l ∈ effLines content, '\n' ∉ l := by
  intro l hl
  rw [effLines, dropLastBlank] at hl
  have hl2 : l ∈ splitLines content := by
    by_cases h : (splitLines content).getLast? = some []
    · rw [if_pos h] at hl
      exact (List.dropLast_sublist _).subset hl
    · rw [if_neg h] at hl
      exact hl
  exact splitOnChar_not_mem '\n' _ l hl2

theorem targetValue_eq_none_iff (key l : Str) :
    targetValue key l = none ↔ isTargetLine key l = false := by
  constructor
  · intro h
    by_contra hc
    simp only [Bool.not_eq_false] at hc
    rcases hsp : splitEq l with _ | p
    · rw [isTargetLine, hsp] at hc
      simp at hc
    · rw [targetValue, if_pos hc, hsp] at h
      cases h
  · intro h
    rw [targetValue, if_neg (by simp [h])]

/-- C6 (amended): for a well-formed key (whitespace-trimmed, nonempty, not
starting with a hash, containing no equals sign and no newline) and a
newline-free value, Update writes back every blank line, comment line and
line keyed by a different variable unchanged and in order (lines taken
after CRLF→LF normalization); every line keyed by `key` is replaced in
place by `key=value` (one is appended when none exists), so the written
file holds max(n,1) entries for `key` when the input held n — exactly one
whenever the input held at most one; the value of the last previous entry
is returned trimmed. -/
theorem env_update_frame (content key value : Str)
    (hkeyNL : '\n' ∉ key) (hvalNL : '\n' ∉ value)
    (htrim : trimSpace key = key) (hne : key ≠ [])
    (hhash : key.head? ≠ some '#') (heq : '=' ∉ key) :
    List.Sublist ((effLines content).filter fun l => !isTargetLine key l)
      (splitOnChar '\n' (envUpdateContent content key value).1) ∧
    (∀ l ∈ splitOnChar '\n' (envUpdateContent content key value).1,
      isTargetLine key l = true → l = keyValueLine key value) ∧
    (splitOnChar '\n' (envUpdateContent content key value).1).countP
        (fun l => isTargetLine key l) =
      max ((effLines content).countP fun l => isTargetLine key l) 1 ∧
    (envUpdateContent content key value).2 =
      trimSpace ((lastTargetValue key (effLines content)).getD []) := by
  have hkv : isTargetLine key (keyValueLine key value) = true :=
    isTargetLine_keyValueLine key value htrim hne hhash heq
  have hkvNL : ('\n' : Char) ∉ keyValueLine key value := by
    rw [keyValueLine]
    intro hmem
    rcases List.mem_append.mp hmem with h | h
    · exact hkeyNL h
    · rcases List.mem_cons.mp h with h | h
      · exact absurd h (by decide)
      · exact hvalNL h
  have hlsNL : ∀ l ∈ effLines content, '\n' ∉ l := effLines_no_newline content
  rcases hup : updateLines key value (effLines content) with ⟨upd, prev⟩
  have hupd : upd = (effLines content).map
      fun l => if isTargetLine key l then keyValueLine key value else l := by
    have h := updateLines_fst key value (effLines content)
    rw [hup] at h
    exact h
  have hprev : prev = lastTargetValue key (effLines content) := by
    have h := updateLines_snd key value (effLines content)
    rw [hup] at h
    exact h
  have h1 : (envUpdateContent content key value).1 = joinNL
      (if prev.isSome then upd
       else (if upd ≠ [] ∧ upd.getLast? ≠ some [] then upd ++ [[]] else upd)
         ++ [keyValueLine key value]) ++ ['\n'] := by
    simp only [envUpdateContent, hup]
  have h2 : (envUpdateContent content key value).2 = trimSpace (prev.getD []) := by
    simp only [envUpdateContent, hup]
  by_cases hps : prev.isSome = true
  · -- some line matched: the result is exactly the in-place replacement
    rcases Option.isSome_iff_exists.mp hps with ⟨v, hv⟩
    have hex : ∃ l0 ∈ effLines content, isTargetLine key l0 = true := by
      have hne0 : (effLines content).filterMap (targetValue key) ≠ [] := by
        intro hnil
        rw [hprev, lastTargetValue, hnil] at hv
        cases hv
      rcases List.exists_mem_of_ne_nil _ hne0 with ⟨w, hw⟩
      rcases List.mem_filterMap.mp hw with ⟨l0, hl0, htv⟩
      refine ⟨l0, hl0, ?_⟩
      by_contra hc
      simp only [Bool.not_eq_true] at hc
      rw [(targetValue_eq_none_iff key l0).mpr hc] at htv
      cases htv
    have hcount1 : 1 ≤ (effLines content).countP fun l => isTargetLine key l := by
      rcases hex with ⟨l0, hl0, ht0⟩
      exact Nat.succ_le_of_lt (List.countP_pos_iff.mpr ⟨l0, hl0, ht0⟩)
    have hFup : (if prev.isSome then upd
        else (if upd ≠ [] ∧ upd.getLast? ≠ some [] then upd ++ [[]] else upd)
          ++ [keyValueLine key value]) = upd := if_pos hps
    have hFne : upd ≠ [] := by
      rw [hupd]
      rcases hex with ⟨l0, hl0, _⟩
      intro hnil
      rw [List.map_eq_nil_iff] at hnil
      rw [hnil] at hl0
      cases hl0
    have hFNL : ∀ l ∈ upd, '\n' ∉ l := by
      intro l hl
      rw [hupd] at hl
      rcases List.mem_map.mp hl with ⟨x, hx, rfl⟩
      by_cases h : isTargetLine key x = true
      · rw [if_pos h]
        exact hkvNL
      · rw [if_neg h]
        exact hlsNL x hx
    have hsplit : splitOnChar '\n' (envUpdateContent content key value).1 = upd ++ [[]] := by
      rw [h1, hFup]
      exact splitOnChar_joinNL upd hFne hFNL
    refine ⟨?_, ?_, ?_, ?_⟩
    · rw [hsplit]
      have hfeq : ((effLines content).filter fun l => !isTargetLine key l) =
          upd.filter fun l => !isTargetLine key l := by
        rw [hupd, map_replace_filter key value hkv]
      rw [hfeq]
      exact (List.filter_sublist _).trans (List.sublist_append_left _ _)
    · intro l hl ht
      rw [hsplit] at hl
      rcases List.mem_append.mp hl with hl | hl
      · rw [hupd] at hl
        exact map_replace_target key value _ l hl ht
      · rw [List.mem_singleton.mp hl] at ht
        rw [isTargetLine_nil] at ht
        cases ht
    · rw [hsplit, List.countP_append, hupd, map_replace_countP key value hkv]
      have : List.countP (fun l => isTargetLine key l) [([] : Str)] = 0 := by
        simp [List.countP_cons, isTargetLine_nil]
      rw [this, Nat.add_zero, Nat.max_eq_left hcount1]
    · rw [h2, hprev]
  · -- no line matched: the original lines are kept and key=value appended
    have hpn : prev = none := Option.not_isSome_iff_eq_none.mp hps
    have hnone : ∀ l ∈ effLines content, isTargetLine key l = false := by
      have hnil : (effLines content).filterMap (targetValue key) = [] := by
        rw [hprev, lastTargetValue] at hpn
        exact List.getLast?_eq_none_iff.mp hpn
      intro l hl
      exact (targetValue_eq_none_iff key l).mp (List.filterMap_eq_nil_iff.mp hnil l hl)
    have hupd2 : upd = effLines content := by
      rw [hupd]
      have hcongr : ∀ l ∈ effLines content,
          (if isTargetLine key l then keyValueLine key value else l) = l := by
        intro l hl
        rw [if_neg (by simp [hnone l hl])]
      rw [List.map_congr_left hcongr]
      exact List.map_id' _
    set pre := if upd ≠ [] ∧ upd.getLast? ≠ some [] then upd ++ [[]] else upd with hpre
    have hpremem : ∀ l ∈ pre, l ∈ effLines content ∨ l = [] := by
      intro l hl
      rw [hpre] at hl
      by_cases hc : upd ≠ [] ∧ upd.getLast? ≠ some []
      · rw [if_pos hc] at hl
        rcases List.mem_append.mp hl with h | h
        · exact Or.inl (hupd2 ▸ h)
        · exact Or.inr (List.mem_singleton.mp h)
      · rw [if_neg hc] at hl
        exact Or.inl (hupd2 ▸ hl)
    have hFne : pre ++ [keyValueLine key value] ≠ [] := by simp
    have hFNL : ∀ l ∈ pre ++ [keyValueLine key value], '\n' ∉ l := by
      intro l hl
      rcases List.mem_append.mp hl with h | h
      · rcases hpremem l h with h2 | h2
        · exact hlsNL l h2
        · rw [h2]
          simp
      · rw [List.mem_singleton.mp h]
        exact hkvNL
    have hsplit : splitOnChar '\n' (envUpdateContent content key value).1 =
        (pre ++ [keyValueLine key value]) ++ [[]] := by
      rw [h1, if_neg hps]
      exact splitOnChar_joinNL _ hFne hFNL
    have hcount0 : (effLines content).countP (fun l => isTargetLine key l) = 0 :=
      List.countP_eq_zero.mpr (by intro l hl; simp [hnone l hl])
    have hlssub : List.Sublist (effLines content) pre := by
      rw [hpre]
      by_cases hc : upd ≠ [] ∧ upd.getLast? ≠ some []
      · rw [if_pos hc, hupd2]
        exact List.sublist_append_left _ _
      · rw [if_neg hc, hupd2]
    refine ⟨?_, ?_, ?_, ?_⟩
    · rw [hsplit]
      have hfeq : ((effLines content).filter fun l => !isTargetLine key l) = effLines content :=
        List.filter_eq_self.mpr (by intro l hl; simp [hnone l hl])
      rw [hfeq, List.append_assoc]
      exact hlssub.trans (List.sublist_append_left _ _)
    · intro l hl ht
      rw [hsplit] at hl
      rcases List.mem_append.mp hl with hl | hl
      · rcases List.mem_append.mp hl with hl | hl
        · rcases hpremem l hl with h2 | h2
          · rw [hnone l h2] at ht
            cases ht
          · rw [h2, isTargetLine_nil] at ht
            cases ht
        · exact List.mem_singleton.mp hl
      · rw [List.mem_singleton.mp hl, isTargetLine_nil] at ht
        cases ht
    · rw [hsplit, List.countP_append, List.countP_append]
      have hp0 : pre.countP (fun l => isTargetLine key l) = 0 := by
        rw [List.countP_eq_zero]
        intro l hl
        rcases hpremem l hl with h2 | h2
        · simp [hnone l h2]
        · simp [h2, isTargetLine_nil]
      have hkv1 : List.countP (fun l => isTargetLine key l) [keyValueLine key value] = 1 := by
        simp [List.countP_cons, hkv]
      have hnil0 : List.countP (fun l => isTargetLine key l) [([] : Str)] = 0 := by
        simp [List.countP_cons, isTargetLine_nil]
      rw [hp0, hkv1, hnil0, hcount0]
      rfl
    · rw [h2, hprev]

/-- C6 counterexample: on content already holding two entries for A,
Update replaces both in place, so afterwards the file holds two entries
for A — not at most one. -/
theorem env_update_duplicate_keys :
    (envUpdateContent "A=1\nA=2\n".toList "A".toList "3".toList).1 = "A=3\nA=3\n".toList ∧
    ¬ ((splitOnChar '\n'
          (envUpdateContent "A=1\nA=2\n".toList "A".toList "3".toList).1).countP
        (fun l => isTargetLine "A".toList l) ≤ 1) :=
  ⟨by decide, by decide⟩

/-- Witness for C6 on a file with a comment line, the target key and an
unrelated key. -/
theorem env_update_frame_witness :
    List.Sublist ((effLines "# c\nA=1\nB=2\n".toList).filter
        fun l => !isTargetLine "A".toList l)
      (splitOnChar '\n'
        (envUpdateContent "# c\nA=1\nB=2\n".toList "A".toList "9".toList).1) ∧
    (splitOnChar '\n'
        (envUpdateContent "# c\nA=1\nB=2\n".toList "A".toList "9".toList).1).countP
        (fun l => isTargetLine "A".toList l) =
      max ((effLines "# c\nA=1\nB=2\n".toList).countP
        fun l => isTargetLine "A".toList l) 1 ∧
    (envUpdateContent "# c\nA=1\nB=2\n".toList "A".toList "9".toList).2 =
      trimSpace ((lastTargetValue "A".toList
        (effLines "# c\nA=1\nB=2\n".toList)).getD []) := by
  have h := env_update_frame "# c\nA=1\nB=2\n".toList "A".toList "9".toList
    (by decide) (by decide) (by decide) (by decide) (by decide) (by decide)
  exact ⟨h.1, h.2.2.1, h.2.2.2⟩

theorem addGroup_same (key n : Str) (g : List Str) :
    addGroup key n [(key, g)] = [(key, g ++ [n])] := by
  simp [addGroup]

theorem groupCronAux_single (key : Str) :
    ∀ (names : List Str) (g : List Str),
      (∀ n ∈ names, ∃ ts, splitCron n = [key, ts]) →
      groupCronAux [(key, g)] names = [(key, g ++ names)] := by
  intro names
  induction names with
  | nil => intro g _; simp [groupCronAux]
  | cons n ns ih =>
    intro g hall
    rcases hall n (List.mem_cons_self n ns) with ⟨ts, hts⟩
    rw [groupCronAux, hts]
    show groupCronAux (addGroup key n [(key, g)]) ns = [(key, g ++ n :: ns)]
    rw [addGroup_same, ih (g ++ [n]) fun m hm => hall m (List.mem_cons_of_mem _ hm)]
    simp

theorem groupCron_single (key : Str) (names : List Str) (hne : names ≠ [])
    (hall : ∀ n ∈ names, ∃ ts, splitCron n = [key, ts]) :
    groupCron names = [(key, names)] := by
  rcases names with _ | ⟨n, ns⟩
  · exact absurd rfl hne
  rcases hall n (List.mem_cons_self n ns) with ⟨ts, hts⟩
  rw [groupCron, groupCronAux, hts]
  show groupCronAux (addGroup key n []) ns = [(key, n :: ns)]
  have h0 : addGroup key n [] = [(key, [n])] := rfl
  rw [h0, groupCronAux_single key ns [n] fun m hm => hall m (List.mem_cons_of_mem _ hm)]
  rfl

theorem cleanupRemoved_single (key : Str) (retention : Nat) (names : List Str)
    (hne : names ≠ []) (hall : ∀ n ∈ names, ∃ ts, splitCron n = [key, ts]) :
    cleanupRemoved retention names = (List.insertionSort nameGE names).drop retention := by
  rw [cleanupRemoved, groupCron_single key names hne hall]
  by_cases hlen : names.length ≤ retention
  · simp only [List.foldr, hlen, if_pos, List.nil_append]
    rw [eq_comm, List.drop_eq_nil_of_le]
    rw [(List.perm_insertionSort nameGE names).length_eq]
    exact hlen
  · simp only [List.foldr, hlen, if_neg, List.append_nil, if_false]

theorem append_lt_append_iff (p a b : Str) : p ++ a < p ++ b ↔ a < b := by
  constructor
  · intro h
    rcases lt_trichotomy a b with h2 | h2 | h2
    · exact h2
    · subst h2
      exact absurd h (lt_irrefl _)
    · exact absurd (List.Lex.append_left _ h2 p) (lt_asymm h)
  · intro h
    exact List.Lex.append_left _ h p

theorem append_le_append_iff (p a b : Str) : p ++ a ≤ p ++ b ↔ a ≤ b := by
  constructor
  · intro h
    rcases le_or_lt a b with h2 | h2
    · exact h2
    · exact absurd ((append_lt_append_iff p b a).mpr h2) (not_lt.mpr h)
  · intro h
    rcases le_or_lt (p ++ a) (p ++ b) with h2 | h2
    · exact h2
    · exact absurd ((append_lt_append_iff p b a).mp h2) (not_lt.mpr h)

theorem cons_lt_cons_iff (x y : Char) (xs ys : Str) :
    (x :: xs : Str) < y :: ys ↔ x < y ∨ (x = y ∧ xs < ys) := by
  constructor
  · intro h
    have h2 : List.Lex (· < ·) (x :: xs) (y :: ys) := h
    cases h2 with
    | cons h3 => exact Or.inr ⟨rfl, h3⟩
    | rel h3 => exact Or.inl h3
  · intro h
    rcases h with h | ⟨rfl, h⟩
    · exact List.Lex.rel h
    · exact List.Lex.cons h

theorem natOfDigits_foldl :
    ∀ (s : Str) (n : Nat),
      s.foldl (fun m c => 10 * m + (c.toNat - 48)) n = n * 10 ^ s.length + natOfDigits s := by
  intro s
  induction s with
  | nil => intro n; simp [natOfDigits]
  | cons c s' ih =>
    intro n
    have e1 : List.foldl (fun m c => 10 * m + (c.toNat - 48)) n (c :: s')
        = (10 * n + (c.toNat - 48)) * 10 ^ s'.length + natOfDigits s' := by
      rw [List.foldl_cons, ih]
    have e2 : natOfDigits (c :: s')
        = (10 * 0 + (c.toNat - 48)) * 10 ^ s'.length + natOfDigits s' := by
      rw [natOfDigits, List.foldl_cons, ih]
    rw [e1, e2, List.length_cons, pow_succ]
    ring

theorem natOfDigits_cons (c : Char) (s : Str) :
    natOfDigits (c :: s) = (c.toNat - 48) * 10 ^ s.length + natOfDigits s := by
  rw [natOfDigits, List.foldl_cons, natOfDigits_foldl]
  norm_num

theorem natOfDigits_lt (s : Str) (hdig : ∀ c ∈ s, c.toNat ≤ 57) :
    natOfDigits s < 10 ^ s.length := by
  induction s with
  | nil => simp [natOfDigits]
  | cons c s' ih =>
    have hd : c.toNat - 48 ≤ 9 := by
      have := hdig c (List.mem_cons_self c s')
      omega
    have hrec := ih fun x hx => hdig x (List.mem_cons_of_mem _ hx)
    calc natOfDigits (c :: s')
        = (c.toNat - 48) * 10 ^ s'.length + natOfDigits s' := natOfDigits_cons c s'
      _ < (c.toNat - 48) * 10 ^ s'.length + 10 ^ s'.length := by omega
      _ = (c.toNat - 48 + 1) * 10 ^ s'.length := by ring
      _ ≤ 10 * 10 ^ s'.length := Nat.mul_le_mul_right _ (by omega)
      _ = 10 ^ (c :: s').length := by rw [List.length_cons, pow_succ]; ring

theorem lt_iff_natOfDigits_lt :
    ∀ (a b : Str), a.length = b.length →
      (∀ c ∈ a, 48 ≤ c.toNat ∧ c.toNat ≤ 57) → (∀ c ∈ b, 48 ≤ c.toNat ∧ c.toNat ≤ 57) →
      ((a : Str) < b ↔ natOfDigits a < natOfDigits b) := by
  intro a
  induction a with
  | nil =>
    intro b hlen _ _
    rcases b with _ | ⟨y, ys⟩
    · constructor
      · intro h
        exact absurd h (lt_irrefl _)
      · intro h
        exact absurd h (lt_irrefl _)
    · simp at hlen
  | cons x xs ih =>
    intro b hlen hda hdb
    rcases b with _ | ⟨y, ys⟩
    · simp at hlen
    · have hlen' : xs.length = ys.length := by simpa using hlen
      have hdx := hda x (List.mem_cons_self x xs)
      have hdy := hdb y (List.mem_cons_self y ys)
      have hda' : ∀ c ∈ xs, 48 ≤ c.toNat ∧ c.toNat ≤ 57 :=
        fun c hc => hda c (List.mem_cons_of_mem _ hc)
      have hdb' : ∀ c ∈ ys, 48 ≤ c.toNat ∧ c.toNat ≤ 57 :=
        fun c hc => hdb c (List.mem_cons_of_mem _ hc)
      have hxa : natOfDigits xs < 10 ^ xs.length := natOfDigits_lt xs fun c hc => (hda' c hc).2
      have hyb : natOfDigits ys < 10 ^ ys.length := natOfDigits_lt ys fun c hc => (hdb' c hc).2
      have hcharlt : (x < y) ↔ x.toNat < y.toNat := Iff.rfl
      rw [cons_lt_cons_iff, natOfDigits_cons, natOfDigits_cons, hlen']
      constructor
      · rintro (h | ⟨rfl, h⟩)
        · have hxy : x.toNat < y.toNat := hcharlt.mp h
          calc (x.toNat - 48) * 10 ^ ys.length + natOfDigits xs
              < (x.toNat - 48) * 10 ^ ys.length + 10 ^ ys.length := by
                rw [← hlen']
                omega
            _ = (x.toNat - 48 + 1) * 10 ^ ys.length := by ring
            _ ≤ (y.toNat - 48) * 10 ^ ys.length := Nat.mul_le_mul_right _ (by omega)
            _ ≤ (y.toNat - 48) * 10 ^ ys.length + natOfDigits ys := Nat.le_add_right _ _
        · have hv := (ih ys hlen' hda' hdb').mp h
          omega
      · intro h
        rcases lt_trichotomy x y with h2 | h2 | h2
        · exact Or.inl h2
        · subst h2
          refine Or.inr ⟨rfl, ?_⟩
          rw [ih ys hlen' hda' hdb']
          omega
        · exfalso
          have hyx : y.toNat < x.toNat := h2
          have : (y.toNat - 48) * 10 ^ ys.length + natOfDigits ys
              < (x.toNat - 48) * 10 ^ ys.length + natOfDigits xs := by
            calc (y.toNat - 48) * 10 ^ ys.length + natOfDigits ys
                < (y.toNat - 48) * 10 ^ ys.length + 10 ^ ys.length := by omega
              _ = (y.toNat - 48 + 1) * 10 ^ ys.length := by ring
              _ ≤ (x.toNat - 48) * 10 ^ ys.length := Nat.mul_le_mul_right _ (by omega)
              _ ≤ (x.toNat - 48) * 10 ^ ys.length + natOfDigits xs := Nat.le_add_right _ _
          omega

theorem drop_key_cron (key ts : Str) : tsOfName key (key ++ cronSep ++ ts) = ts := by
  rw [tsOfName, show key.length + 6 = (key ++ cronSep).length by simp [cronSep]]
  exact List.drop_left _ _

/-- C7 (amended): over the completed job containers of one stack-service
pair, a cleanup pass with retention N removes exactly the containers past
the N newest in descending container-name order (the Go sort compares
whole names bytewise) and touches nothing but listed containers — in
particular no log file; whenever all embedded timestamps have the same
digit count, as all contemporary unix timestamps do, that order coincides
with embedded-timestamp order, so exactly the N most recent by timestamp
remain. -/
theorem cleanup_retention (retention : Nat) (key : Str) (tss : List Str) (names : List Str)
    (hne : tss ≠ [])
    (hnames : names = tss.map fun ts => key ++ cronSep ++ ts)
    (hsplit : ∀ ts ∈ tss, splitCron (key ++ cronSep ++ ts) = [key, ts]) :
    cleanupRemoved retention names = (List.insertionSort nameGE names).drop retention ∧
    (List.insertionSort nameGE names).Perm names ∧
    (∀ x ∈ cleanupRemoved retention names, x ∈ names) ∧
    ∀ L : Nat, (∀ ts ∈ tss, ts.length = L) →
      (∀ ts ∈ tss, ∀ c ∈ ts, 48 ≤ c.toNat ∧ c.toNat ≤ 57) →
      (List.insertionSort nameGE names).Pairwise
        fun a b => natOfDigits (tsOfName key b) ≤ natOfDigits (tsOfName key a) := by
  have hnamesne : names ≠ [] := by
    rw [hnames]
    intro h
    rw [List.map_eq_nil_iff] at h
    exact hne h
  have hall : ∀ n ∈ names, ∃ ts, splitCron n = [key, ts] := by
    intro n hn
    rw [hnames, List.mem_map] at hn
    rcases hn with ⟨ts, hts, rfl⟩
    exact ⟨ts, hsplit ts hts⟩
  have hmain := cleanupRemoved_single key retention names hnamesne hall
  have hperm := List.perm_insertionSort nameGE names
  refine ⟨hmain, hperm, ?_, ?_⟩
  · intro x hx
    rw [hmain] at hx
    exact hperm.subset (List.drop_subset _ _ hx)
  · intro L hL hdig
    have hsorted : (List.insertionSort nameGE names).Pairwise nameGE :=
      List.sorted_insertionSort nameGE names
    refine hsorted.imp_of_mem ?_
    intro a b ha hb hge
    have ha' : a ∈ names := hperm.subset ha
    have hb' : b ∈ names := hperm.subset hb
    rw [hnames, List.mem_map] at ha' hb'
    rcases ha' with ⟨ts1, hts1, rfl⟩
    rcases hb' with ⟨ts2, hts2, rfl⟩
    rw [drop_key_cron, drop_key_cron]
    have hle : ts2 ≤ ts1 := (append_le_append_iff (key ++ cronSep) ts2 ts1).mp hge
    by_contra hc
    rw [not_le] at hc
    have hlt : ts1 < ts2 := by
      rw [lt_iff_natOfDigits_lt ts1 ts2 (by rw [hL ts1 hts1, hL ts2 hts2])
        (hdig ts1 hts1) (hdig ts2 hts2)]
      exact hc
    exact absurd hlt (not_lt.mpr hle)

/-- C7 counterexample: with one 9-digit and two 10-digit timestamps in one
service group, the name-bytewise sort ranks the 9-digit (numerically
oldest) container as newest, so cleanup with retention 2 removes the
container whose embedded timestamp is larger than the one it retains. -/
theorem cleanup_lexicographic_not_timestamp :
    cleanupRemoved 2
        ["s-a-cron-999999999".toList, "s-a-cron-1000000000".toList,
          "s-a-cron-1000000001".toList] = ["s-a-cron-1000000000".toList] ∧
    natOfDigits (tsOfName "s-a".toList "s-a-cron-999999999".toList) <
      natOfDigits (tsOfName "s-a".toList "s-a-cron-1000000000".toList) :=
  ⟨by decide, by decide⟩

/-- Witness for C7: five same-length-timestamp containers of one service
with retention 2. -/
theorem cleanup_retention_witness :
    cleanupRemoved 2
        (["1735392001".toList, "1735392005".toList, "1735392003".toList,
          "1735392002".toList, "1735392004".toList].map
          fun ts => "s-a".toList ++ cronSep ++ ts) =
      (List.insertionSort nameGE
        (["1735392001".toList, "1735392005".toList, "1735392003".toList,
          "1735392002".toList, "1735392004".toList].map
          fun ts => "s-a".toList ++ cronSep ++ ts)).drop 2 ∧
    (List.insertionSort nameGE
        (["1735392001".toList, "1735392005".toList, "1735392003".toList,
          "1735392002".toList, "1735392004".toList].map
          fun ts => "s-a".toList ++ cronSep ++ ts)).Pairwise
      (fun a b => natOfDigits (tsOfName "s-a".toList b) ≤
        natOfDigits (tsOfName "s-a".toList a)) := by
  have h := cleanup_retention 2 "s-a".toList
    ["1735392001".toList, "1735392005".toList, "1735392003".toList,
      "1735392002".toList, "1735392004".toList]
    (["1735392001".toList, "1735392005".toList, "1735392003".toList,
      "1735392002".toList, "1735392004".toList].map
      fun ts => "s-a".toList ++ cronSep ++ ts)
    (by decide) rfl (by decide)
  exact ⟨h.1, h.2.2.2 10 (by decide) (by decide)⟩

end Stackr
